import Mathlib

/-!
A shallow embedding of the pure C++ rational I/Q resampler
(class IQResamplerCPP, files iq_resampler_cpp.h / iq_resampler_cpp.cpp,
duplicated inline in iq_resampler.h).

Float arithmetic is modelled exactly: sample values and stream positions
become rational numbers, and the transcendental filter-design path becomes
real numbers.  Machine float rounding, 32-bit int overflow of sample
counts, and out-of-range vector reads (undefined behaviour in the C++)
are outside the model; size_t wrap-around of the tail-bound expression is
modelled exactly with arithmetic modulo 2^64.
-/

set_option maxRecDepth 8000

namespace IQR

/-- Truncation toward zero of a rational number: the semantics of the C
cast (int)x applied to a float value. -/
def truncQ (q : ℚ) : ℤ := q.num.tdiv (q.den : ℤ)

/-- Absolute value of the C truncated remainder: |a tmod b| = |a| mod |b|. -/
theorem natAbs_tmod (a b : ℤ) : (a.tmod b).natAbs = a.natAbs % b.natAbs := by
  cases a <;> cases b <;>
    simp only [Int.tmod, Int.natAbs_neg, Int.natAbs_ofNat, Int.natAbs_negSucc] <;> rfl

/-- IQResamplerCPP::gcd — the Euclid loop from the source, with the C
truncated remainder operator. -/
def gcdInt (a b : ℤ) : ℤ :=
  if h : b = 0 then a else gcdInt b (a.tmod b)
termination_by b.natAbs
decreasing_by
  rw [natAbs_tmod]
  exact Nat.mod_lt _ (Int.natAbs_pos.mpr h)

/-- IQResamplerCPP::generateFilter, body of the tap loop: windowed-sinc
value of tap i before normalization (h * window in the source). -/
noncomputable def sincTap (numTaps : ℕ) (cutoffFreq : ℝ) (i : ℕ) : ℝ :=
  let center : ℕ := numTaps / 2
  let t : ℝ := (i : ℝ) - (center : ℝ)
  let h : ℝ :=
    if t = 0 then 2 * cutoffFreq
    else Real.sin (2 * Real.pi * cutoffFreq * t) / (Real.pi * t)
  let window : ℝ := 0.54 - 0.46 * Real.cos (2 * Real.pi * (i : ℝ) / ((numTaps : ℝ) - 1))
  h * window

/-- Sum accumulated over the first loop of IQResamplerCPP::generateFilter. -/
noncomputable def preFilterSum (numTaps : ℕ) (cutoffFreq : ℝ) : ℝ :=
  ∑ i ∈ Finset.range numTaps, sincTap numTaps cutoffFreq i

/-- IQResamplerCPP::generateFilter: windowed-sinc taps divided by their sum
(second loop of the source). -/
noncomputable def generateFilter (numTaps : ℕ) (cutoffFreq : ℝ) : List ℝ :=
  (List.range numTaps).map fun i => sincTap numTaps cutoffFreq i / preFilterSum numTaps cutoffFreq

/-- Member state of class IQResamplerCPP. -/
@[ext]
structure Resampler where
  inputRate : ℤ
  outputRate : ℤ
  upFactor : ℤ
  downFactor : ℤ
  filter : List ℝ
  filterLen : ℕ
  stateI : List ℚ
  stateQ : List ℚ
  inputPos : ℤ

/-- IQResamplerCPP::IQResamplerCPP.  The constructor performs no rate
validation; the only failure mode in the source is the division by g when
gcd(inputRate, outputRate) = 0 (both rates zero), which is undefined
behaviour in C++ and is modelled as none. -/
noncomputable def mkResamplerState (inputRate outputRate : ℤ) (filterTaps : ℕ) : Resampler :=
  let g := gcdInt inputRate outputRate
  let up := outputRate.tdiv g
  let down := inputRate.tdiv g
  { inputRate := inputRate
    outputRate := outputRate
    upFactor := up
    downFactor := down
    filter := generateFilter filterTaps ((0.5 : ℝ) / ((max up down : ℤ) : ℝ))
    filterLen := filterTaps
    stateI := List.replicate filterTaps 0
    stateQ := List.replicate filterTaps 0
    inputPos := 0 }

/-- Construction entry point: a zero gcd (both rates zero) would divide by
zero, the undefined behaviour modelled as none; otherwise the member
initialization above runs. -/
noncomputable def mkResampler (inputRate outputRate : ℤ) (filterTaps : ℕ) : Option Resampler :=
  let g := gcdInt inputRate outputRate
  if g = 0 then none
  else some (mkResamplerState inputRate outputRate filterTaps)

/-- I channel of an interleaved block: input[2 i] for i < n (n = size/2). -/
def chanI (input : List ℚ) (n : ℕ) : List ℚ :=
  (List.range n).map fun i => input.getD (2 * i) 0

/-- Q channel of an interleaved block: input[2 i + 1] for i < n. -/
def chanQ (input : List ℚ) (n : ℕ) : List ℚ :=
  (List.range n).map fun i => input.getD (2 * i + 1) 0

/-- numOutputSamples = (long long)numInputSamples * outputRate_ / inputRate_,
with the C truncating integer division. -/
def numOut (n : ℕ) (outR inR : ℤ) : ℤ := ((n : ℤ) * outR).tdiv inR

/-- Source position of output index i:
inputPos = (float)stateI_.size() + i * (inputRate_ / outputRate_). -/
def posAt (histLen : ℕ) (inR outR : ℤ) (i : ℕ) : ℚ :=
  (histLen : ℚ) + (i : ℚ) * ((inR : ℚ) / (outR : ℚ))

/-- The size_t expression inI.size() - filterLen_/2 of the emission guard,
with the unsigned 64-bit wrap-around of size_t subtraction. -/
def tailBound (extLen filterLen : ℕ) : ℤ :=
  ((extLen : ℤ) - ((filterLen / 2 : ℕ) : ℤ)) % (2 ^ 64)

/-- Output indices of the processing loop that pass the emission guard
inputPos < inI.size() - filterLen_/2. -/
def emittedIndices (r : Resampler) (n : ℕ) : List ℕ :=
  (List.range (numOut n r.outputRate r.inputRate).toNat).filter fun i =>
    posAt r.stateI.length r.inputRate r.outputRate i < ((tailBound (r.stateI.length + n) r.filterLen : ℤ) : ℚ)

/-- Linear interpolation step of the processing loop.  The idx+1 bound is
checked against the given extLen (the source checks (int)inI.size() for
both channels).  Out-of-range reads, undefined behaviour in the C++,
default to 0. -/
def lerpWith (ext : List ℚ) (extLen : ℕ) (pos : ℚ) : ℚ :=
  let idx := truncQ pos
  let frac : ℚ := pos - (idx : ℚ)
  if idx + 1 < (extLen : ℤ) then
    ext.getD idx.toNat 0 * (1 - frac) + ext.getD (idx.toNat + 1) 0 * frac
  else
    ext.getD idx.toNat 0

/-- State-update loop at the end of IQResamplerCPP::process: slot i is
overwritten with input[(numInputSamples - stateSize + i) * 2 + off] for
i < stateSize = min(state size, numInputSamples); the later slots keep
their old value.  off = 0 selects the I channel, off = 1 the Q channel. -/
def updatedHist (hist input : List ℚ) (n off : ℕ) : List ℚ :=
  let s := min hist.length n
  (List.range hist.length).map fun i =>
    if i < s then input.getD ((n - s + i) * 2 + off) 0 else hist.getD i 0

/-- IQResamplerCPP::process.  The odd-length check throws before any member
is written, so the error branch returns the state unchanged. -/
def process (r : Resampler) (input : List ℚ) : Except String (List ℚ) × Resampler :=
  if input.length % 2 ≠ 0 then
    (Except.error "Input size must be even (I/Q pairs)", r)
  else
    let n := input.length / 2
    let inI := r.stateI ++ chanI input n
    let inQ := r.stateQ ++ chanQ input n
    let out := (emittedIndices r n).flatMap fun i =>
      [lerpWith inI inI.length (posAt r.stateI.length r.inputRate r.outputRate i),
       lerpWith inQ inI.length (posAt r.stateI.length r.inputRate r.outputRate i)]
    (Except.ok out,
      { r with stateI := updatedHist r.stateI input n 0
               stateQ := updatedHist r.stateQ input n 1 })

/-- IQResamplerCPP::reset: refill both history vectors with zeros (their
length is unchanged) and clear inputPos_. -/
def reset (r : Resampler) : Resampler :=
  { r with stateI := List.replicate r.stateI.length 0
           stateQ := List.replicate r.stateQ.length 0
           inputPos := 0 }

/-- Wording of claim C1 and of spec section 4.3 for one emitted value:
idx = floor(pos), frac = pos - idx, and the linearly interpolated value
ext[idx]*(1-frac) + ext[idx+1]*frac, falling back to ext[idx] when idx+1
is out of bounds. -/
def specLerp (ext : List ℚ) (pos : ℚ) : ℚ :=
  let idx : ℤ := ⌊pos⌋
  let frac : ℚ := pos - (idx : ℚ)
  if idx + 1 < (ext.length : ℤ) then
    ext.getD idx.toNat 0 * (1 - frac) + ext.getD (idx.toNat + 1) 0 * frac
  else
    ext.getD idx.toNat 0

/-- Claim C1 exactly as written: outputCount = floor(n*outputRate/inputRate)
in wide exact arithmetic; pos = historyLength + i*(inputRate/outputRate);
the call stops emitting once pos exceeds (strictly) extendedLength -
tapCount/2, so the boundary position pos = extendedLength - tapCount/2
still emits; each emitted step appends the interpolated I and Q values. -/
def specOutputC1AsWritten (r : Resampler) (input : List ℚ) : List ℚ :=
  let n := input.length / 2
  let extI := r.stateI ++ chanI input n
  let extQ := r.stateQ ++ chanQ input n
  let outputCount := (⌊((n : ℚ) * (r.outputRate : ℚ)) / (r.inputRate : ℚ)⌋).toNat
  let bound : ℚ := ((r.stateI.length + n : ℕ) : ℚ) - ((r.filterLen / 2 : ℕ) : ℚ)
  ((List.range outputCount).takeWhile fun i =>
      ¬ bound < posAt r.stateI.length r.inputRate r.outputRate i).flatMap fun i =>
    [specLerp extI (posAt r.stateI.length r.inputRate r.outputRate i),
     specLerp extQ (posAt r.stateI.length r.inputRate r.outputRate i)]

/-- Claim C1 with the one amendment the code forces: emission stops as soon
as pos reaches or exceeds extendedLength - tapCount/2 (the source guard is
the strict inputPos < inI.size() - filterLen_/2). -/
def specOutputC1Amended (r : Resampler) (input : List ℚ) : List ℚ :=
  let n := input.length / 2
  let extI := r.stateI ++ chanI input n
  let extQ := r.stateQ ++ chanQ input n
  let outputCount := (⌊((n : ℚ) * (r.outputRate : ℚ)) / (r.inputRate : ℚ)⌋).toNat
  let bound : ℚ := ((r.stateI.length + n : ℕ) : ℚ) - ((r.filterLen / 2 : ℕ) : ℚ)
  ((List.range outputCount).takeWhile fun i =>
      posAt r.stateI.length r.inputRate r.outputRate i < bound).flatMap fun i =>
    [specLerp extI (posAt r.stateI.length r.inputRate r.outputRate i),
     specLerp extQ (posAt r.stateI.length r.inputRate r.outputRate i)]

/-- Wording of claim C2: the last s = min(tapCount, n) channel samples of
the current input block (off = 0 for I, off = 1 for Q). -/
def lastSamples (input : List ℚ) (n s off : ℕ) : List ℚ :=
  (List.range s).map fun i => input.getD ((n - s + i) * 2 + off) 0

/-- Wording of claim C6 for one tap: offset t = i - tapCount/2 as integers,
the windowed-sinc value 2*cutoff at t = 0 and sin(2*pi*cutoff*t)/(pi*t)
otherwise, times the Hamming window 0.54 - 0.46*cos(2*pi*i/(tapCount-1)). -/
noncomputable def specTap (tapCount : ℕ) (cutoff : ℝ) (i : ℕ) : ℝ :=
  let t : ℤ := (i : ℤ) - ((tapCount / 2 : ℕ) : ℤ)
  let ideal : ℝ :=
    if t = 0 then 2 * cutoff
    else Real.sin (2 * Real.pi * cutoff * (t : ℝ)) / (Real.pi * (t : ℝ))
  let hamming : ℝ := 0.54 - 0.46 * Real.cos (2 * Real.pi * (i : ℝ) / ((tapCount : ℝ) - 1))
  ideal * hamming

/-- Wording of claim C6 for the whole filter: the windowed-sinc sequence
normalized to unit sum. -/
noncomputable def specFilterDesign (tapCount : ℕ) (cutoff : ℝ) : List ℝ :=
  (List.range tapCount).map fun i =>
    specTap tapCount cutoff i / ∑ j ∈ Finset.range tapCount, specTap tapCount cutoff j

/-- Reading each slot of a list in order reproduces the list. -/
theorem map_getD_range (l : List ℚ) :
    (List.range l.length).map (fun i => l.getD i 0) = l := by
  apply List.ext_getElem (by simp)
  intro i h1 h2
  simp [List.getD_eq_getElem?_getD, List.getElem?_eq_getElem h2]

/-- Reading the slots from s on reproduces the dropped list. -/
theorem map_getD_range_drop (l : List ℚ) (s : ℕ) :
    (List.range (l.length - s)).map (fun x => l.getD (s + x) 0) = l.drop s := by
  apply List.ext_getElem (by simp)
  intro i h1 h2
  have hs : s + i < l.length := by
    simp at h1
    omega
  simp [List.getD_eq_getElem?_getD, List.getElem?_eq_getElem hs]

/-- Mapping a guarded function over an index range splits at the guard. -/
theorem map_if_split {α : Type} (s L : ℕ) (h : s ≤ L) (f g : ℕ → α) :
    (List.range L).map (fun i => if i < s then f i else g i) =
      (List.range s).map f ++ (List.range (L - s)).map (fun x => g (s + x)) := by
  conv_lhs => rw [show L = s + (L - s) by omega]
  rw [List.range_add, List.map_append, List.map_map]
  congr 1
  · apply List.map_congr_left
    intro i hi
    simp only [List.mem_range] at hi
    simp [hi]
  · apply List.map_congr_left
    intro x _
    have hx : ¬ (s + x < s) := by omega
    simp [Function.comp, hx]

/-- The state-update loop writes the trailing block samples into the
leading history slots and keeps the remaining slots. -/
theorem updatedHist_eq (hist input : List ℚ) (n off : ℕ) :
    updatedHist hist input n off =
      lastSamples input n (min hist.length n) off ++ hist.drop (min hist.length n) := by
  unfold updatedHist lastSamples
  rw [map_if_split (min hist.length n) hist.length (Nat.min_le_left _ _)]
  rw [map_getD_range_drop]

/-- A block of no samples leaves the history untouched. -/
theorem updatedHist_zero (hist input : List ℚ) (off : ℕ) :
    updatedHist hist input 0 off = hist := by
  rw [updatedHist_eq]
  simp [lastSamples]

/-- C4: for every odd-length input block, process fails with the
invalid-input error and returns with every piece of resampler state
exactly as it was before the call. -/
theorem C4_odd_input_rejected (r : Resampler) (input : List ℚ)
    (h : input.length % 2 = 1) :
    process r input = (Except.error "Input size must be even (I/Q pairs)", r) := by
  simp [process, h]

/-- Concrete resampler instance (tapCount 2, unit rates, freshly
constructed) used to instantiate several claims. -/
noncomputable def baseR : Resampler := mkResamplerState 1 1 2

theorem C4_odd_input_rejected_witness :
    ([(1 : ℚ)].length % 2 = 1) ∧
      process baseR [(1 : ℚ)] =
        (Except.error "Input size must be even (I/Q pairs)", baseR) :=
  ⟨rfl, C4_odd_input_rejected baseR [(1 : ℚ)] rfl⟩

/-- C8: a zero-length input block is not an error: process succeeds,
returns a zero-length output and leaves the whole state (in particular
both channel histories) unchanged. -/
theorem C8_empty_input (r : Resampler) : process r [] = (Except.ok [], r) := by
  unfold process
  simp only [List.length_nil, Nat.zero_mod, ne_eq, not_true_eq_false, if_false,
    Nat.zero_div, updatedHist_zero]
  simp [emittedIndices, numOut]

/-- Processing changes only the two channel histories, and preserves even
their lengths. -/
theorem process_preserves (r : Resampler) (X : List ℚ) :
    (process r X).2.inputRate = r.inputRate ∧ (process r X).2.outputRate = r.outputRate ∧
    (process r X).2.upFactor = r.upFactor ∧ (process r X).2.downFactor = r.downFactor ∧
    (process r X).2.filter = r.filter ∧ (process r X).2.filterLen = r.filterLen ∧
    (process r X).2.inputPos = r.inputPos ∧
    (process r X).2.stateI.length = r.stateI.length ∧
    (process r X).2.stateQ.length = r.stateQ.length := by
  unfold process
  by_cases h : X.length % 2 ≠ 0 <;> simp [h, updatedHist]

/-- Resetting after a process call that followed a reset gives back the
very same state as the first reset. -/
theorem reset_process_reset (r : Resampler) (X : List ℚ) :
    reset ((process (reset r) X).2) = reset r := by
  obtain ⟨h1, h2, h3, h4, h5, h6, _, h8, h9⟩ := process_preserves (reset r) X
  unfold reset at *
  ext : 1 <;> simp_all

/-- C3: reset zeroes both channel histories, and running process on the
same input right after two resets of the same instance gives element-wise
identical outputs. -/
theorem C3_reset_idempotent (r : Resampler) (X : List ℚ) (h : X.length % 2 = 0) :
    (reset r).stateI = List.replicate r.stateI.length 0 ∧
    (reset r).stateQ = List.replicate r.stateQ.length 0 ∧
    (process (reset ((process (reset r) X).2)) X).1 = (process (reset r) X).1 := by
  refine ⟨rfl, rfl, ?_⟩
  rw [reset_process_reset]

theorem C3_reset_idempotent_witness :
    ([(1 : ℚ), 2].length % 2 = 0) ∧
      ((reset baseR).stateI = List.replicate baseR.stateI.length 0 ∧
       (reset baseR).stateQ = List.replicate baseR.stateQ.length 0 ∧
       (process (reset ((process (reset baseR) [(1 : ℚ), 2]).2)) [(1 : ℚ), 2]).1 =
         (process (reset baseR) [(1 : ℚ), 2]).1) :=
  ⟨rfl, C3_reset_idempotent baseR [(1 : ℚ), 2] rfl⟩

/-- Concrete resampler instance (tapCount 2, unit rates, freshly
constructed) used for claim C2. -/
noncomputable def sampleR2 : Resampler := mkResamplerState 1 1 2

/-- C2 as frozen is wrong about which history slots a short block
refreshes: the update loop writes the trailing block samples into the
LEADING min(tapCount, n) slots (stateI_[i] for i < stateSize) and the
trailing slots keep their prior values.  Here tapCount = 2 and a second
call with one complex sample (3, 30), after a call that left I-history
[1, 2], yields I-history [3, 2]; the claim predicts [1, 3]. -/
theorem C2_counterexample :
    ((process ((process sampleR2 [1, 10, 2, 20]).2) [3, 30]).2).stateI = [3, 2] ∧
      ((process ((process sampleR2 [1, 10, 2, 20]).2) [3, 30]).2).stateI ≠ [1, 3] := by
  constructor
  · norm_num [process, sampleR2, mkResamplerState, updatedHist, List.range_succ,
      show List.replicate 2 (0 : ℚ) = [0, 0] from rfl]
  · norm_num [process, sampleR2, mkResamplerState, updatedHist, List.range_succ,
      show List.replicate 2 (0 : ℚ) = [0, 0] from rfl]

/-- C2 amended: after every successful process call on a block of n
complex samples, the LEADING min(tapCount, n) history slots of each
channel hold the last min(tapCount, n) samples of the current input block
in order, and when n < tapCount the remaining (trailing) history slots
retain their prior, older values. -/
theorem C2_history_update (r : Resampler) (input : List ℚ)
    (heven : input.length % 2 = 0)
    (hlen : r.stateI.length = r.filterLen) (hlenQ : r.stateQ.length = r.filterLen) :
    (process r input).2.stateI =
      lastSamples input (input.length / 2) (min r.filterLen (input.length / 2)) 0 ++
        r.stateI.drop (min r.filterLen (input.length / 2)) ∧
    (process r input).2.stateQ =
      lastSamples input (input.length / 2) (min r.filterLen (input.length / 2)) 1 ++
        r.stateQ.drop (min r.filterLen (input.length / 2)) := by
  unfold process
  simp [heven, updatedHist_eq, hlen, hlenQ]

theorem C2_history_update_witness :
    (([(3 : ℚ), 30].length % 2 = 0) ∧ sampleR2.stateI.length = sampleR2.filterLen ∧
      sampleR2.stateQ.length = sampleR2.filterLen) ∧
      ((process sampleR2 [(3 : ℚ), 30]).2.stateI =
        lastSamples [(3 : ℚ), 30] ([(3 : ℚ), 30].length / 2)
            (min sampleR2.filterLen ([(3 : ℚ), 30].length / 2)) 0 ++
          sampleR2.stateI.drop (min sampleR2.filterLen ([(3 : ℚ), 30].length / 2)) ∧
       (process sampleR2 [(3 : ℚ), 30]).2.stateQ =
        lastSamples [(3 : ℚ), 30] ([(3 : ℚ), 30].length / 2)
            (min sampleR2.filterLen ([(3 : ℚ), 30].length / 2)) 1 ++
          sampleR2.stateQ.drop (min sampleR2.filterLen ([(3 : ℚ), 30].length / 2))) :=
  ⟨⟨rfl, rfl, rfl⟩, C2_history_update sampleR2 [(3 : ℚ), 30] rfl rfl rfl⟩

/-- Appending an element that fails the predicate does not change a
takeWhile. -/
theorem takeWhile_append_false {α : Type} (p : α → Bool) (l : List α) (a : α)
    (ha : p a = false) : (l ++ [a]).takeWhile p = l.takeWhile p := by
  induction l with
  | nil => simp [List.takeWhile, ha]
  | cons b l ih =>
    by_cases hb : p b
    · simp [List.takeWhile, hb, ih]
    · simp [List.takeWhile] at hb ⊢
      simp [hb]

/-- takeWhile keeps everything when every element passes. -/
theorem takeWhile_eq_self_of_all {α : Type} (p : α → Bool) (l : List α)
    (h : ∀ x ∈ l, p x = true) : l.takeWhile p = l := by
  induction l with
  | nil => rfl
  | cons b l ih =>
    have hb : p b = true := h b (by simp)
    have hl : ∀ x ∈ l, p x = true := fun x hx => h x (by simp [hx])
    simp [List.takeWhile, hb, ih hl]

/-- On an index range, a per-index test that is downward closed filters the
same prefix that a stop-at-first-failure scan keeps: the source loop tests
every index, the spec stops at the first failing one. -/
theorem filter_eq_takeWhile (p : ℕ → Bool) (m : ℕ)
    (hp : ∀ i j, i ≤ j → p j = true → p i = true) :
    (List.range m).filter p = (List.range m).takeWhile p := by
  induction m with
  | zero => rfl
  | succ m ih =>
    rw [List.range_succ]
    cases h : p m with
    | false =>
      rw [List.filter_append, takeWhile_append_false p _ _ h, ← ih]
      simp [h]
    | true =>
      have hall : ∀ x ∈ List.range (m + 1), p x = true := by
        intro x hx
        simp only [List.mem_range] at hx
        exact hp x m (by omega) h
      rw [← List.range_succ]
      rw [List.filter_eq_self.mpr hall, takeWhile_eq_self_of_all p _ hall]

/-- For nonnegative arguments the C cast (int)x agrees with floor. -/
theorem truncQ_eq_floor (q : ℚ) (h : 0 ≤ q) : truncQ q = ⌊q⌋ := by
  unfold truncQ
  rw [Rat.floor_def]
  exact Int.tdiv_eq_ediv (Rat.num_nonneg.mpr h) (by positivity)

/-- Every source position of the processing loop is nonnegative when the
rates are positive. -/
theorem posAt_nonneg (histLen : ℕ) (inR outR : ℤ) (i : ℕ)
    (hin : 0 < inR) (hout : 0 < outR) : 0 ≤ posAt histLen inR outR i := by
  unfold posAt
  have h1 : (0 : ℚ) < (inR : ℚ) := by exact_mod_cast hin
  have h2 : (0 : ℚ) < (outR : ℚ) := by exact_mod_cast hout
  positivity

/-- Source positions are monotone in the output index when the rates are
positive. -/
theorem posAt_mono (histLen : ℕ) (inR outR : ℤ) (i j : ℕ) (hij : i ≤ j)
    (hin : 0 < inR) (hout : 0 < outR) :
    posAt histLen inR outR i ≤ posAt histLen inR outR j := by
  unfold posAt
  have h1 : (0 : ℚ) < (inR : ℚ) := by exact_mod_cast hin
  have h2 : (0 : ℚ) < (outR : ℚ) := by exact_mod_cast hout
  have h3 : (i : ℚ) ≤ (j : ℚ) := by exact_mod_cast hij
  have h4 : (0 : ℚ) ≤ (inR : ℚ) / (outR : ℚ) := by positivity
  nlinarith

/-- With the interpolation half-width inside the extended buffer and a
realistic buffer size, the size_t guard value is the exact difference. -/
theorem tailBound_cast_eq (extLen filterLen : ℕ) (h1 : filterLen ≤ extLen)
    (h2 : (extLen : ℤ) < 2 ^ 64) :
    ((tailBound extLen filterLen : ℤ) : ℚ) =
      ((extLen : ℕ) : ℚ) - ((filterLen / 2 : ℕ) : ℚ) := by
  have hk : (filterLen / 2 : ℕ) ≤ extLen := le_trans (Nat.div_le_self _ _) h1
  unfold tailBound
  generalize hgen : (filterLen / 2 : ℕ) = k
  rw [hgen] at hk
  rw [Int.emod_eq_of_lt (by omega) (by omega), Int.cast_sub, Int.cast_natCast, Int.cast_natCast]

/-- The truncating wide division of the source equals the floor of the
exact rational quotient when the rates are positive. -/
theorem numOut_eq_floor (n : ℕ) (outR inR : ℤ) (ho : 0 ≤ outR) (hi : 0 < inR) :
    numOut n outR inR = ⌊((n : ℚ) * (outR : ℚ)) / (inR : ℚ)⌋ := by
  unfold numOut
  rw [Int.tdiv_eq_ediv (by positivity) hi.le]
  have hcast : ((n : ℚ) * (outR : ℚ)) = (((n : ℤ) * outR : ℤ) : ℚ) := by push_cast; ring
  have hcast2 : (inR : ℚ) = ((inR.toNat : ℕ) : ℚ) := by
    rw_mod_cast [Int.toNat_of_nonneg hi.le]
  rw [hcast, hcast2, Rat.floor_intCast_div_natCast, Int.toNat_of_nonneg hi.le]

/-- The C cast agrees with floor on every source position (positive
rates), so the two interpolation formulas agree channel-wise. -/
theorem lerpWith_eq_specLerp (ext : List ℚ) (pos : ℚ) (h : 0 ≤ pos) :
    lerpWith ext ext.length pos = specLerp ext pos := by
  unfold lerpWith specLerp
  rw [truncQ_eq_floor pos h]

/-- C1 amended: for every even-length block (n = length/2 complex
samples) on a resampler with positive rates and histories of tapCount
samples, process emits exactly as the claim describes except at the
boundary: outputCount = floor(n*outputRate/inputRate) in wide exact
arithmetic, pos = historyLength + i*(inputRate/outputRate) over
history ++ newSamples, emission stops once pos REACHES OR EXCEEDS
extendedLength - tapCount/2, otherwise the linear interpolation
ext[idx]*(1-frac) + ext[idx+1]*frac with idx = floor(pos) (fallback
ext[idx] when idx+1 is out of bounds) is emitted identically for I and Q;
and the designed filter coefficients play no role in this path. -/
theorem C1_process_emission (r : Resampler) (input : List ℚ)
    (heven : input.length % 2 = 0)
    (hin : 0 < r.inputRate) (hout : 0 < r.outputRate)
    (hlenI : r.stateI.length = r.filterLen) (hlenQ : r.stateQ.length = r.filterLen)
    (hsize : ((r.stateI.length + input.length / 2 : ℕ) : ℤ) < 2 ^ 64) :
    (process r input).1 = Except.ok (specOutputC1Amended r input) ∧
      ∀ f, (process { r with filter := f } input).1 = (process r input).1 := by
  have hpar : ¬ (input.length % 2 ≠ 0) := by simp [heven]
  constructor
  · unfold process specOutputC1Amended
    rw [if_neg hpar]
    dsimp only
    congr 1
    unfold emittedIndices
    rw [numOut_eq_floor _ _ _ hout.le hin]
    rw [tailBound_cast_eq (r.stateI.length + input.length / 2) r.filterLen
      (by omega) hsize]
    rw [filter_eq_takeWhile]
    · congr 1
      funext i
      have hpos : 0 ≤ posAt r.stateI.length r.inputRate r.outputRate i :=
        posAt_nonneg _ _ _ _ hin hout
      have hQI : (r.stateI ++ chanI input (input.length / 2)).length =
          (r.stateQ ++ chanQ input (input.length / 2)).length := by
        simp [chanI, chanQ, hlenI, hlenQ]
      rw [lerpWith_eq_specLerp _ _ hpos, hQI, lerpWith_eq_specLerp _ _ hpos]
    · intro i j hij hj
      simp only [decide_eq_true_eq] at hj ⊢
      exact lt_of_le_of_lt (posAt_mono _ _ _ _ _ hij hin hout) hj
  · intro f
    by_cases hp : input.length % 2 ≠ 0
    · simp [process, hp]
    · simp [process, hp, emittedIndices]

/-- Concrete resampler instance (tapCount 4, unit rates, freshly
constructed) used for claim C1. -/
noncomputable def sampleR1 : Resampler := mkResamplerState 1 1 4

/-- C1 as frozen fails at the boundary position: with unit rates,
tapCount 4 and three complex input samples, output index 1 has
pos = 5 = extendedLength - tapCount/2; the claim (stop only once pos
strictly exceeds the bound) emits it, but the source guard
inputPos < inI.size() - filterLen_/2 is strict, so the code does not:
the code returns one complex sample where the claim predicts two. -/
theorem C1_counterexample :
    (process sampleR1 [1, 10, 2, 20, 3, 30]).1 ≠
      Except.ok (specOutputC1AsWritten sampleR1 [1, 10, 2, 20, 3, 30]) := by
  have h1 : (process sampleR1 [1, 10, 2, 20, 3, 30]).1 = Except.ok [1, 10] := by
    simp [process, sampleR1, mkResamplerState, emittedIndices, numOut, posAt, tailBound,
      chanI, chanQ, lerpWith, truncQ, List.range_succ, Int.tdiv_one,
      show List.replicate 4 (0 : ℚ) = [0, 0, 0, 0] from rfl]
    norm_num
    all_goals simp
  have h2 : specOutputC1AsWritten sampleR1 [1, 10, 2, 20, 3, 30] = [1, 10, 2, 20] := by
    simp [specOutputC1AsWritten, specLerp, posAt, chanI, chanQ, sampleR1,
      mkResamplerState, List.range_succ, List.takeWhile,
      show List.replicate 4 (0 : ℚ) = [0, 0, 0, 0] from rfl]
    norm_num
    all_goals simp
  rw [h1, h2]
  simp

theorem C1_process_emission_witness :
    ((([1, 10, 2, 20, 3, 30] : List ℚ).length % 2 = 0) ∧
      (0 : ℤ) < sampleR1.inputRate ∧ (0 : ℤ) < sampleR1.outputRate ∧
      sampleR1.stateI.length = sampleR1.filterLen ∧
      sampleR1.stateQ.length = sampleR1.filterLen ∧
      ((sampleR1.stateI.length + ([1, 10, 2, 20, 3, 30] : List ℚ).length / 2 : ℕ) : ℤ) < 2 ^ 64) ∧
    ((process sampleR1 [1, 10, 2, 20, 3, 30]).1 =
        Except.ok (specOutputC1Amended sampleR1 [1, 10, 2, 20, 3, 30]) ∧
      ∀ f, (process { sampleR1 with filter := f } [1, 10, 2, 20, 3, 30]).1 =
        (process sampleR1 [1, 10, 2, 20, 3, 30]).1) :=
  ⟨⟨rfl, by norm_num [sampleR1, mkResamplerState], by norm_num [sampleR1, mkResamplerState], rfl, rfl, by norm_num [sampleR1, mkResamplerState]⟩,
   C1_process_emission sampleR1 [1, 10, 2, 20, 3, 30] rfl (by norm_num [sampleR1, mkResamplerState])
     (by norm_num [sampleR1, mkResamplerState]) rfl rfl (by norm_num [sampleR1, mkResamplerState])⟩

/-- Emitting a two-element block per kept index doubles the length. -/
theorem flatMap_pair_length {α : Type} (l : List α) (f g : α → ℚ) :
    (l.flatMap fun i => [f i, g i]).length = 2 * l.length := by
  induction l with
  | nil => rfl
  | cons a l ih =>
    simp only [List.flatMap_cons, List.length_append, List.length_cons, ih]
    simp
    omega

/-- In a flatMap of two-element blocks, offset 2j holds the first value of
block j and offset 2j+1 its second value. -/
theorem flatMap_pair_getD (l : List ℕ) (f g : ℕ → ℚ) (j : ℕ) (hj : j < l.length) :
    (l.flatMap fun i => [f i, g i]).getD (2 * j) 0 = f (l.getD j 0) ∧
      (l.flatMap fun i => [f i, g i]).getD (2 * j + 1) 0 = g (l.getD j 0) := by
  induction l generalizing j with
  | nil => simp at hj
  | cons a l ih =>
    cases j with
    | zero => simp [List.flatMap_cons]
    | succ j =>
      have hj2 : j < l.length := by simpa using hj
      rw [show 2 * (j + 1) = 2 * j + 1 + 1 by ring]
      simp only [List.flatMap_cons, List.cons_append, List.singleton_append,
        List.getD_cons_succ]
      exact ih j hj2

/-- C10 (implicit): on every even-length input with positive rates the
output consists of complete I/Q pairs: its length is even (twice the
number of kept loop indices), the value at even offset 2j is the
I interpolation and the value at 2j+1 the Q interpolation of the very
same source position, and the number of emitted complex pairs never
exceeds floor(n * outputRate / inputRate). -/
theorem C10_output_pairs (r : Resampler) (input : List ℚ)
    (heven : input.length % 2 = 0) (hin : 0 < r.inputRate) (hout : 0 < r.outputRate) :
    ∃ out : List ℚ, (process r input).1 = Except.ok out ∧
      out.length = 2 * (emittedIndices r (input.length / 2)).length ∧
      out.length % 2 = 0 ∧
      (emittedIndices r (input.length / 2)).length ≤
        (input.length / 2) * r.outputRate.toNat / r.inputRate.toNat ∧
      ∀ j, j < (emittedIndices r (input.length / 2)).length →
        out.getD (2 * j) 0 =
          lerpWith (r.stateI ++ chanI input (input.length / 2))
            (r.stateI ++ chanI input (input.length / 2)).length
            (posAt r.stateI.length r.inputRate r.outputRate
              ((emittedIndices r (input.length / 2)).getD j 0)) ∧
        out.getD (2 * j + 1) 0 =
          lerpWith (r.stateQ ++ chanQ input (input.length / 2))
            (r.stateI ++ chanI input (input.length / 2)).length
            (posAt r.stateI.length r.inputRate r.outputRate
              ((emittedIndices r (input.length / 2)).getD j 0)) := by
  have hpar : ¬ (input.length % 2 ≠ 0) := by simp [heven]
  refine ⟨(emittedIndices r (input.length / 2)).flatMap fun i =>
    [lerpWith (r.stateI ++ chanI input (input.length / 2))
        (r.stateI ++ chanI input (input.length / 2)).length
        (posAt r.stateI.length r.inputRate r.outputRate i),
     lerpWith (r.stateQ ++ chanQ input (input.length / 2))
        (r.stateI ++ chanI input (input.length / 2)).length
        (posAt r.stateI.length r.inputRate r.outputRate i)], ?_, ?_, ?_, ?_, ?_⟩
  · unfold process
    rw [if_neg hpar]
  · exact flatMap_pair_length _ _ _
  · rw [flatMap_pair_length]
    omega
  · have h1 : (emittedIndices r (input.length / 2)).length ≤
        (numOut (input.length / 2) r.outputRate r.inputRate).toNat := by
      unfold emittedIndices
      calc (List.filter _ (List.range _)).length
          ≤ (List.range (numOut (input.length / 2) r.outputRate r.inputRate).toNat).length :=
            List.length_filter_le _ _
        _ = _ := List.length_range _
    have h2 : numOut (input.length / 2) r.outputRate r.inputRate =
        (((input.length / 2) * r.outputRate.toNat / r.inputRate.toNat : ℕ) : ℤ) := by
      unfold numOut
      rw [show r.outputRate = ((r.outputRate.toNat : ℕ) : ℤ) from
            (Int.toNat_of_nonneg hout.le).symm,
          show r.inputRate = ((r.inputRate.toNat : ℕ) : ℤ) from
            (Int.toNat_of_nonneg hin.le).symm]
      rw [← Int.natCast_mul, ← Int.ofNat_tdiv]
      simp
    rw [h2, Int.toNat_natCast] at h1
    exact h1
  · intro j hj
    exact flatMap_pair_getD _ _ _ j hj

theorem C10_output_pairs_witness :
    (([(1 : ℚ), 2].length % 2 = 0) ∧ (0 : ℤ) < baseR.inputRate ∧ (0 : ℤ) < baseR.outputRate) ∧
      (∃ out : List ℚ, (process baseR [(1 : ℚ), 2]).1 = Except.ok out ∧
        out.length = 2 * (emittedIndices baseR ([(1 : ℚ), 2].length / 2)).length ∧
        out.length % 2 = 0 ∧
        (emittedIndices baseR ([(1 : ℚ), 2].length / 2)).length ≤
          ([(1 : ℚ), 2].length / 2) * baseR.outputRate.toNat / baseR.inputRate.toNat ∧
        ∀ j, j < (emittedIndices baseR ([(1 : ℚ), 2].length / 2)).length →
          out.getD (2 * j) 0 =
            lerpWith (baseR.stateI ++ chanI [(1 : ℚ), 2] ([(1 : ℚ), 2].length / 2))
              (baseR.stateI ++ chanI [(1 : ℚ), 2] ([(1 : ℚ), 2].length / 2)).length
              (posAt baseR.stateI.length baseR.inputRate baseR.outputRate
                ((emittedIndices baseR ([(1 : ℚ), 2].length / 2)).getD j 0)) ∧
          out.getD (2 * j + 1) 0 =
            lerpWith (baseR.stateQ ++ chanQ [(1 : ℚ), 2] ([(1 : ℚ), 2].length / 2))
              (baseR.stateI ++ chanI [(1 : ℚ), 2] ([(1 : ℚ), 2].length / 2)).length
              (posAt baseR.stateI.length baseR.inputRate baseR.outputRate
                ((emittedIndices baseR ([(1 : ℚ), 2].length / 2)).getD j 0))) :=
  ⟨⟨rfl, by norm_num [baseR, mkResamplerState], by norm_num [baseR, mkResamplerState]⟩,
   C10_output_pairs baseR [(1 : ℚ), 2] rfl (by norm_num [baseR, mkResamplerState]) (by norm_num [baseR, mkResamplerState])⟩

/-- On nonnegative arguments the source gcd loop computes the
mathematical gcd. -/
theorem gcdInt_eq_gcd (a b : ℤ) (ha : 0 ≤ a) (hb : 0 ≤ b) :
    gcdInt a b = (Int.gcd a b : ℤ) := by
  rw [gcdInt]
  split
  next h =>
    subst h
    simp [Int.gcd, Int.natAbs_of_nonneg ha]
  next h =>
    rw [gcdInt_eq_gcd b (a.tmod b) hb (Int.tmod_nonneg b ha)]
    congr 1
    unfold Int.gcd
    rw [natAbs_tmod]
    rw [Nat.gcd_comm b.natAbs, ← Nat.gcd_rec, Nat.gcd_comm]
termination_by b.natAbs
decreasing_by
  rw [natAbs_tmod]
  exact Nat.mod_lt _ (Int.natAbs_pos.mpr (by assumption))

/-- C5: for every pair of positive rates, construction succeeds and
reduces the ratio exactly: upFactor = outputRate/g and downFactor =
inputRate/g with g = gcd(inputRate, outputRate), the two factors are
coprime, and upFactor/downFactor = outputRate/inputRate as exact
rationals. -/
theorem C5_ratio_reduction (inR outR : ℤ) (taps : ℕ) (hin : 0 < inR) (hout : 0 < outR) :
    ∃ r, mkResampler inR outR taps = some r ∧
      r.upFactor = outR / (Int.gcd inR outR : ℤ) ∧
      r.downFactor = inR / (Int.gcd inR outR : ℤ) ∧
      Int.gcd r.upFactor r.downFactor = 1 ∧
      (r.upFactor : ℚ) / (r.downFactor : ℚ) = (outR : ℚ) / (inR : ℚ) := by
  have hg : gcdInt inR outR = (Int.gcd inR outR : ℤ) := gcdInt_eq_gcd _ _ hin.le hout.le
  have hgpos : 0 < Int.gcd inR outR := Int.gcd_pos_iff.mpr (Or.inl hin.ne')
  have hgz : (Int.gcd inR outR : ℤ) ≠ 0 := by exact_mod_cast hgpos.ne'
  have hne : gcdInt inR outR ≠ 0 := by rw [hg]; exact hgz
  have hup : outR.tdiv (gcdInt inR outR) = outR / (Int.gcd inR outR : ℤ) := by
    rw [hg]
    exact Int.tdiv_eq_ediv hout.le (by exact_mod_cast Nat.zero_le _)
  have hdown : inR.tdiv (gcdInt inR outR) = inR / (Int.gcd inR outR : ℤ) := by
    rw [hg]
    exact Int.tdiv_eq_ediv hin.le (by exact_mod_cast Nat.zero_le _)
  refine ⟨mkResamplerState inR outR taps, ?_, hup, hdown, ?_, ?_⟩
  · unfold mkResampler
    dsimp only
    rw [if_neg hne]
  · show Int.gcd (outR.tdiv (gcdInt inR outR)) (inR.tdiv (gcdInt inR outR)) = 1
    rw [hup, hdown, Int.gcd_comm inR outR]
    exact Int.gcd_div_gcd_div_gcd (by rw [Int.gcd_comm]; exact hgpos)
  · show ((outR.tdiv (gcdInt inR outR) : ℤ) : ℚ) / ((inR.tdiv (gcdInt inR outR) : ℤ) : ℚ) =
      (outR : ℚ) / (inR : ℚ)
    rw [hup, hdown]
    have hdvd_out : ((Int.gcd inR outR : ℕ) : ℤ) ∣ outR := Int.gcd_dvd_right
    have hdvd_in : ((Int.gcd inR outR : ℕ) : ℤ) ∣ inR := Int.gcd_dvd_left
    have hZ : (outR / (Int.gcd inR outR : ℤ)) * inR = outR * (inR / (Int.gcd inR outR : ℤ)) := by
      calc (outR / (Int.gcd inR outR : ℤ)) * inR
          = inR * (outR / (Int.gcd inR outR : ℤ)) := mul_comm _ _
        _ = inR * outR / (Int.gcd inR outR : ℤ) := (Int.mul_ediv_assoc inR hdvd_out).symm
        _ = outR * inR / (Int.gcd inR outR : ℤ) := by rw [mul_comm inR outR]
        _ = outR * (inR / (Int.gcd inR outR : ℤ)) := Int.mul_ediv_assoc outR hdvd_in
    have hdne : inR / (Int.gcd inR outR : ℤ) ≠ 0 := by
      intro h0
      have hc := Int.ediv_mul_cancel hdvd_in
      rw [h0, zero_mul] at hc
      exact hin.ne' hc.symm
    have hd : ((inR / (Int.gcd inR outR : ℤ) : ℤ) : ℚ) ≠ 0 := by exact_mod_cast hdne
    have hq : ((inR : ℤ) : ℚ) ≠ 0 := by exact_mod_cast hin.ne'
    rw [div_eq_div_iff hd hq]
    exact_mod_cast hZ

theorem C5_ratio_reduction_witness :
    ((0 : ℤ) < 120000 ∧ (0 : ℤ) < 100000) ∧
      (∃ r, mkResampler 120000 100000 127 = some r ∧
        r.upFactor = 100000 / (Int.gcd 120000 100000 : ℤ) ∧
        r.downFactor = 120000 / (Int.gcd 120000 100000 : ℤ) ∧
        Int.gcd r.upFactor r.downFactor = 1 ∧
        (r.upFactor : ℚ) / (r.downFactor : ℚ) = (100000 : ℚ) / (120000 : ℚ)) :=
  ⟨⟨by norm_num, by norm_num⟩,
   C5_ratio_reduction 120000 100000 127 (by norm_num) (by norm_num)⟩

/-- C9 as frozen is wrong: the constructor contains no rate validation at
all.  With the invalid rate pair inputRate = -1, outputRate = 2 the
construction runs to completion and hands back an instance — no
invalid-argument or construction-failure condition is signaled. -/
theorem C9_counterexample : (mkResampler (-1) 2 127).isSome = true := by
  have h1 : Int.tmod (-1) 2 = -1 := by decide
  have h2 : Int.tmod 2 (-1) = 0 := by decide
  have hg : gcdInt (-1) 2 = -1 := by simp [gcdInt, h1, h2]
  unfold mkResampler
  dsimp only
  rw [hg]
  norm_num

/-- C9 amended: the constructor performs no rate validation.  Whenever
gcd(inputRate, outputRate) is nonzero — in particular for negative or
mixed-sign rate pairs that are not both zero — construction completes and
produces an instance with no error; only inputRate = outputRate = 0
reaches the division by the zero gcd (undefined behaviour in the C++,
modelled as a failed construction). -/
theorem C9_no_rate_validation (inR outR : ℤ) (taps : ℕ)
    (h : gcdInt inR outR ≠ 0) :
    (∃ r, mkResampler inR outR taps = some r) ∧ mkResampler 0 0 taps = none := by
  constructor
  · refine ⟨mkResamplerState inR outR taps, ?_⟩
    unfold mkResampler
    dsimp only
    rw [if_neg h]
  · have h0 : gcdInt 0 0 = 0 := by simp [gcdInt]
    unfold mkResampler
    dsimp only
    rw [if_pos h0]

theorem C9_no_rate_validation_witness :
    (gcdInt (-1) 2 ≠ 0) ∧
      ((∃ r, mkResampler (-1) 2 127 = some r) ∧ mkResampler 0 0 127 = none) :=
  ⟨by simp [gcdInt, (by decide : Int.tmod (-1) 2 = -1), (by decide : Int.tmod 2 (-1) = 0)],
   C9_no_rate_validation (-1) 2 127
     (by simp [gcdInt, (by decide : Int.tmod (-1) 2 = -1), (by decide : Int.tmod 2 (-1) = 0)])⟩

/-- The tap loop body equals the claim wording tap for tap: the zero-offset
test on the real value t agrees with the integer test, and the windowed
sinc expressions coincide. -/
theorem sincTap_eq_specTap (numTaps : ℕ) (c : ℝ) (i : ℕ) :
    sincTap numTaps c i = specTap numTaps c i := by
  unfold sincTap specTap
  dsimp only
  generalize (numTaps / 2 : ℕ) = k
  have hcast : (((i : ℤ) - (k : ℤ) : ℤ) : ℝ) = (i : ℝ) - (k : ℝ) := by
    push_cast
    ring
  by_cases h : (i : ℤ) - (k : ℤ) = 0
  · have hr : (i : ℝ) - (k : ℝ) = 0 := by
      rw [← hcast, h, Int.cast_zero]
    rw [if_pos hr, if_pos h]
  · have hr : ¬ ((i : ℝ) - (k : ℝ) = 0) := by
      intro hc
      apply h
      have hz : (((i : ℤ) - (k : ℤ) : ℤ) : ℝ) = 0 := by rw [hcast, hc]
      exact_mod_cast hz
    rw [if_neg hr, if_neg h, hcast]

/-- The generated filter equals the claim wording filter. -/
theorem generateFilter_eq_spec (numTaps : ℕ) (c : ℝ) :
    generateFilter numTaps c = specFilterDesign numTaps c := by
  unfold generateFilter specFilterDesign preFilterSum
  simp only [sincTap_eq_specTap]

/-- C6: for positive rates the coefficients computed at construction are
exactly the normalized Hamming-windowed sinc taps of the claim, with
cutoff = 0.5 / max(upFactor, downFactor). -/
theorem C6_filter_coefficients (inR outR : ℤ) (taps : ℕ)
    (hin : 0 < inR) (hout : 0 < outR) :
    ∃ r, mkResampler inR outR taps = some r ∧
      r.filter = specFilterDesign taps
        ((0.5 : ℝ) / max (r.upFactor : ℝ) (r.downFactor : ℝ)) := by
  have hg : gcdInt inR outR = (Int.gcd inR outR : ℤ) := gcdInt_eq_gcd _ _ hin.le hout.le
  have hgpos : 0 < Int.gcd inR outR := Int.gcd_pos_iff.mpr (Or.inl hin.ne')
  have hne : gcdInt inR outR ≠ 0 := by
    rw [hg]
    exact_mod_cast hgpos.ne'
  refine ⟨mkResamplerState inR outR taps, ?_, ?_⟩
  · unfold mkResampler
    dsimp only
    rw [if_neg hne]
  · show generateFilter taps ((0.5 : ℝ) /
        ((max (outR.tdiv (gcdInt inR outR)) (inR.tdiv (gcdInt inR outR)) : ℤ) : ℝ)) =
      specFilterDesign taps ((0.5 : ℝ) /
        max ((outR.tdiv (gcdInt inR outR) : ℤ) : ℝ) ((inR.tdiv (gcdInt inR outR) : ℤ) : ℝ))
    rw [generateFilter_eq_spec, Int.cast_max]

theorem C6_filter_coefficients_witness :
    ((0 : ℤ) < 2 ∧ (0 : ℤ) < 3) ∧
      (∃ r, mkResampler 2 3 5 = some r ∧
        r.filter = specFilterDesign 5
          ((0.5 : ℝ) / max (r.upFactor : ℝ) (r.downFactor : ℝ))) :=
  ⟨⟨by norm_num, by norm_num⟩, C6_filter_coefficients 2 3 5 (by norm_num) (by norm_num)⟩

/-- Sum of a mapped index range as a Finset sum. -/
theorem list_sum_map_range (n : ℕ) (f : ℕ → ℝ) :
    ((List.range n).map f).sum = ∑ i ∈ Finset.range n, f i := by
  induction n with
  | zero => simp
  | succ n ih =>
    rw [List.range_succ, List.map_append, List.sum_append, Finset.sum_range_succ, ih]
    simp

/-- C7: in exact arithmetic the generated coefficients sum to exactly 1
for every tapCount ≥ 3 whose pre-normalization tap sum is nonzero (this
covers the tested tapCounts 31, 63, 127, 255 whenever their sum is
nonzero). -/
theorem C7_coefficients_sum_one (numTaps : ℕ) (c : ℝ) (h3 : 3 ≤ numTaps)
    (hS : preFilterSum numTaps c ≠ 0) :
    (generateFilter numTaps c).sum = 1 := by
  unfold generateFilter
  rw [list_sum_map_range, ← Finset.sum_div]
  exact div_self hS

/-- At tapCount 3 and cutoff 1/2 the pre-normalization sum evaluates to 1:
the two off-center taps vanish (sin at +-pi) and the center tap has unit
window (cos at pi). -/
theorem preFilterSum_unit : preFilterSum 3 ((1 : ℝ)/2) = 1 := by
  unfold preFilterSum
  rw [Finset.sum_range_succ, Finset.sum_range_succ, Finset.sum_range_succ,
    Finset.sum_range_zero]
  unfold sincTap
  norm_num
  rw [show (2 : ℝ) * Real.pi * (1 / 2) = Real.pi by ring, Real.sin_pi]
  norm_num

theorem C7_coefficients_sum_one_witness :
    ((3 : ℕ) ≤ 3 ∧ preFilterSum 3 ((1 : ℝ)/2) ≠ 0) ∧
      (generateFilter 3 ((1 : ℝ)/2)).sum = 1 :=
  ⟨⟨le_refl 3, by rw [preFilterSum_unit]; norm_num⟩,
   C7_coefficients_sum_one 3 ((1 : ℝ)/2) (le_refl 3)
     (by rw [preFilterSum_unit]; norm_num)⟩

end IQR
